import Mathlib

/-!
Shallow embedding of `src/run.py` (samba/dupefinder): a SQLite-backed duplicate
finder.  The relational state (tables `dirs` and `files`), the SQL views
(`fulltree`, `latest_files`, `dupe_files`, `parent_dir_match_score`) and the
queries issued by `loaddirs`, `finddupefiles` and `finddupedirs` are embedded
as executable Lean definitions over lists of rows.

Modelling conventions, each taken from the concrete SQLite semantics the
program relies on:
* `TEXT` columns are `String` (compared by code points, which for the ASCII
  data in play coincides with SQLite's BINARY collation); nullable columns are
  `Option _`; `ts TIMESTAMP DEFAULT CURRENT_TIMESTAMP` is modelled as a `Nat`
  supplied per ingest batch (one scan run = one clock reading).
* SQL `NULL` comparison semantics: an equality or `<` against `NULL` is not
  true, and `UNIQUE` constraints treat `NULL` as distinct from every value
  including `NULL` — so `INSERT OR IGNORE` never conflicts on a `NULL` parent.
* `SELECT ... LIMIT 1` without `ORDER BY` and the bare columns accompanying a
  `MAX()` aggregate are deterministic-in-practice scan-order choices in
  SQLite; they are modelled by the corresponding first-row-in-table-order
  choice (row order = rowid order = insertion order).
-/

namespace Dupefinder

/-! ### Path materialization (the `fulltree` view)

`fulltree` computes `REPLACE(parent.path || '/' || name, '//', '/')`:
SQLite's `REPLACE` substitutes every occurrence left to right without
overlap.  We model the specific `REPLACE(s, '//', '/')` call directly on the
character list. -/

/-- SQLite `REPLACE(s, '//', '/')`: collapse each non-overlapping occurrence
of two consecutive slashes into one, scanning left to right. -/
def collapseSlashes : List Char → List Char
  | [] => []
  | [c] => [c]
  | c1 :: c2 :: rest =>
    if c1 = '/' ∧ c2 = '/' then '/' :: collapseSlashes rest
    else c1 :: collapseSlashes (c2 :: rest)

/-- The path-building step of the recursive `fulltree` view:
`REPLACE(dirpath.path || '/' || B.name, '//', '/')`. -/
def pathJoin (parentPath name : String) : String :=
  ⟨collapseSlashes (parentPath.data ++ '/' :: name.data)⟩

/-! ### Tables -/

/-- A row of the `dirs` table: `id INTEGER PRIMARY KEY AUTOINCREMENT`,
`name TEXT NOT NULL`, `parent INTEGER REFERENCES dirs(id)` (nullable). -/
structure DirRow where
  id : Nat
  name : String
  parent : Option Nat
deriving Repr, DecidableEq

/-- A row of the `files` table: `id`, `name TEXT NOT NULL`,
`parent INTEGER` (nullable), `checksum TEXT NOT NULL`,
`ts TIMESTAMP DEFAULT CURRENT_TIMESTAMP`. -/
structure FileRow where
  id : Nat
  name : String
  parent : Option Nat
  checksum : String
  ts : Nat
deriving Repr, DecidableEq

/-- The persistent store `files.db`: both tables in rowid order plus the next
`AUTOINCREMENT` id of each. -/
structure Store where
  dirs : List DirRow
  files : List FileRow
  nextDirId : Nat
  nextFileId : Nat
deriving Repr, DecidableEq

def emptyStore : Store := ⟨[], [], 1, 1⟩

/-! ### The `fulltree` recursive view

The recursive CTE seeds with every `parent IS NULL` row (path = name) and
repeatedly joins `dirs B ... WHERE dirpath.id = B.parent`.  SQLite evaluates a
recursive CTE with a FIFO queue, so rows come out in breadth-first order:
all roots in rowid order, then the children of each queued row in rowid
order, and so on.  The recursion is bounded by `dirs.length` levels, which
covers every acyclic store (a longer chain would need more distinct rows). -/

def childrenOf (dirs : List DirRow) (i : Nat) : List DirRow :=
  dirs.filter (fun d => d.parent == some i)

def rootsOf (dirs : List DirRow) : List DirRow :=
  dirs.filter (fun d => d.parent == none)

/-- One recursive step: all children of the current queue level, each with its
materialized path. -/
def ftLevel (dirs : List DirRow) (level : List (Nat × String)) : List (Nat × String) :=
  level.flatMap (fun x => (childrenOf dirs x.1).map (fun d => (d.id, pathJoin x.2 d.name)))

/-- Emit `fuel` successive queue levels. -/
def ftLevels (dirs : List DirRow) : Nat → List (Nat × String) → List (Nat × String)
  | 0, _ => []
  | fuel + 1, level => level ++ ftLevels dirs fuel (ftLevel dirs level)

/-- The `fulltree` view: `(id, path)` for every directory, in the CTE's
breadth-first output order. -/
def fulltree (dirs : List DirRow) : List (Nat × String) :=
  ftLevels dirs dirs.length ((rootsOf dirs).map (fun d => (d.id, d.name)))

/-- `SELECT id FROM fulltree WHERE path = ? LIMIT 1`: the first row of the
view (in its output order) whose path matches.  A `NULL` bound path matches
nothing (handled by the caller passing `none`). -/
def resolvePath (dirs : List DirRow) (p : String) : Option Nat :=
  ((fulltree dirs).find? (fun r => r.2 == p)).map (·.1)

/-! ### Ingest (`loaddirs` over the `scandir` tuple stream)

`scandir` yields tuples `(is_dir, name, parent_path, checksum)`; the first is
always the root seed `(True, "", None, None)`.  `loaddirs` executes, per
tuple, one of

* `INSERT OR IGNORE INTO dirs (name, parent)
   VALUES (?, (SELECT id FROM fulltree WHERE path=? LIMIT 1))`
* `INSERT OR IGNORE INTO files (name, parent, checksum)
   VALUES (?, (SELECT id FROM fulltree WHERE path=? LIMIT 1), ?)`

If the parent path does not resolve, the scalar subquery yields `NULL` and
the row is inserted with a `NULL` parent.  `OR IGNORE` drops the row exactly
when the `UNIQUE` constraint conflicts, and a `NULL` parent never conflicts
(SQLite treats `NULL`s as pairwise distinct in `UNIQUE` indexes).  A file
tuple with a `NULL` checksum would violate `checksum NOT NULL`, which
`OR IGNORE` also turns into a skip. -/

/-- One tuple of the ingest stream produced by `scandir`. -/
structure ScanTuple where
  isDir : Bool
  name : String
  parent : Option String
  csum : Option String
deriving Repr, DecidableEq

/-- The seed `yield True, "", None, None` that starts every scan run. -/
def seedTuple : ScanTuple := ⟨true, "", none, none⟩

/-- The dirs branch of the `loaddirs` loop. -/
def insertDir (s : Store) (name : String) (parentPath : Option String) : Store :=
  let pid := parentPath.bind (fun pp => resolvePath s.dirs pp)
  if pid.isSome && s.dirs.any (fun d => d.name == name && d.parent == pid) then s
  else { s with dirs := s.dirs ++ [⟨s.nextDirId, name, pid⟩],
                nextDirId := s.nextDirId + 1 }

/-- The files branch of the `loaddirs` loop (`ts` is the batch's
`CURRENT_TIMESTAMP`). -/
def insertFile (s : Store) (name : String) (parentPath : Option String)
    (csum : String) (ts : Nat) : Store :=
  let pid := parentPath.bind (fun pp => resolvePath s.dirs pp)
  if pid.isSome && s.files.any
      (fun f => f.name == name && f.parent == pid && f.checksum == csum) then s
  else { s with files := s.files ++ [⟨s.nextFileId, name, pid, csum, ts⟩],
                nextFileId := s.nextFileId + 1 }

/-- Process one scan tuple. -/
def ingestStep (ts : Nat) (s : Store) (t : ScanTuple) : Store :=
  if t.isDir then insertDir s t.name t.parent
  else
    match t.csum with
    | none => s
    | some c => insertFile s t.name t.parent c ts

/-- `loaddirs`: process a whole scan run against the store. -/
def ingestAll (s : Store) (tuples : List ScanTuple) (ts : Nat) : Store :=
  tuples.foldl (ingestStep ts) s

/-! ### The `latest_files` view

```
SELECT f.name, f.parent, MAX(f.ts) as ts, b.id, b.checksum, p.path
FROM files f
LEFT OUTER JOIN files b USING (name, parent, ts)
LEFT JOIN fulltree p ON p.id = f.parent
GROUP BY f.name, f.parent
```

`GROUP BY` treats `NULL` parents as one group.  The bare columns `b.id`,
`b.checksum` accompany the lone `MAX(f.ts)` aggregate, so SQLite takes them
from the first joined row (in scan order) at which the maximum is attained;
with the self-join on `(name, parent, ts)` that is the first table row of the
group whose `ts` is maximal.  When `parent` is `NULL` the `USING` join
condition is never true, so `b.id` and `b.checksum` come out `NULL`. -/

structure LatestRow where
  name : String
  parent : Option Nat
  ts : Nat
  id : Option Nat
  checksum : Option String
  path : Option String
deriving Repr, DecidableEq

/-- First-occurrence deduplication (used for `GROUP BY` key enumeration,
`SELECT DISTINCT` and `UNION`). -/
def dedupList {α : Type} [DecidableEq α] : List α → List α
  | [] => []
  | x :: xs => x :: (dedupList xs).filter (fun y => !(y == x))

/-- The `GROUP BY f.name, f.parent` keys, in first-occurrence order. -/
def latestKeys (files : List FileRow) : List (String × Option Nat) :=
  dedupList (files.map (fun f => (f.name, f.parent)))

/-- The row of `latest_files` for one `(name, parent)` group. -/
def latestFor (files : List FileRow) (dirs : List DirRow)
    (k : String × Option Nat) : Option LatestRow :=
  let grp := files.filter (fun f => f.name == k.1 && f.parent == k.2)
  if grp.isEmpty then none
  else
    let mts := (grp.map (·.ts)).foldl Nat.max 0
    let b := if k.2.isSome then grp.find? (fun f => f.ts == mts) else none
    some { name := k.1, parent := k.2, ts := mts,
           id := b.map (·.id), checksum := b.map (·.checksum),
           path := k.2.bind (fun i =>
             ((fulltree dirs).find? (fun r => r.1 == i)).map (·.2)) }

/-- The `latest_files` view. -/
def latest_files (s : Store) : List LatestRow :=
  (latestKeys s.files).filterMap (latestFor s.files s.dirs)

/-! ### Text ordering and `LIKE`

`ORDER BY` on `TEXT` uses the BINARY collation (bytewise); UTF-8 byte order
agrees with code-point order, modelled lexicographically on the character
list.  `NULL` sorts before every value in ascending order.  `LIKE` with a
pattern `prefix || '%'` (no other wildcards) matches exactly the strings that
start with the prefix, comparing ASCII letters case-insensitively. -/

def clLe : List Char → List Char → Bool
  | [], _ => true
  | _ :: _, [] => false
  | a :: as, b :: bs =>
    if a.toNat < b.toNat then true
    else if b.toNat < a.toNat then false
    else clLe as bs

def strLeB (a b : String) : Bool := clLe a.data b.data

def optLeB {α : Type} (le : α → α → Bool) : Option α → Option α → Bool
  | none, _ => true
  | some _, none => false
  | some x, some y => le x y

def asciiLower (c : Char) : Char :=
  if 'A' ≤ c ∧ c ≤ 'Z' then Char.ofNat (c.toNat + 32) else c

/-- `s LIKE pfx || '%'` for a wildcard-free `pfx`. -/
def likeMatch (pfx s : String) : Bool :=
  (pfx.data.map asciiLower).isPrefixOf (s.data.map asciiLower)

/-- Insertion into a list sorted by the boolean relation `le`. -/
def insertLe {α : Type} (le : α → α → Bool) (x : α) : List α → List α
  | [] => [x]
  | y :: ys => if le x y then x :: y :: ys else y :: insertLe le x ys

/-- Insertion sort by the boolean relation `le` (stable, which fixes the
order among `ORDER BY` key ties deterministically). -/
def insSort {α : Type} (le : α → α → Bool) : List α → List α
  | [] => []
  | x :: xs => insertLe le x (insSort le xs)

/-! ### `finddupefiles`

```
WITH dupe_csum (c, checksum) AS (
    SELECT COUNT(id) as c, checksum FROM latest_files
    GROUP BY checksum HAVING c > 1)
SELECT a.id, (b.path || '/' || a.name) as path, a.ts, a.checksum
FROM dupe_csum d
    LEFT JOIN latest_files a ON d.checksum=a.checksum
    LEFT JOIN fulltree b ON b.id=a.parent
[WHERE a.path LIKE "<abspath(parentpath) + '/'>%"]   -- only with a prefix argument
ORDER BY a.checksum, b.path
```

`COUNT(id)` skips `NULL` ids, and rows of `latest_files` have a `NULL` id
exactly when they have a `NULL` checksum, so the `NULL`-checksum group never
reaches `c > 1`; the join `d.checksum = a.checksum` likewise never matches a
`NULL`.  Hence only non-`NULL` checksums with at least two latest rows
produce output.  `b` re-joins `fulltree` on `a.parent`, giving the same
directory path that `a.path` carries.  The commented-out `WHERE` inside the
CTE is inert: the prefix filter applies only to the final row stream. -/

structure DupeFileRow where
  id : Option Nat
  path : Option String
  ts : Nat
  checksum : String
deriving Repr, DecidableEq

/-- The non-`NULL` checksums counted more than once among the latest files
(`dupe_csum` of the `finddupefiles` query, whose `COUNT(id)` ignores `NULL`
ids). -/
def dupeChecksumsQ (lf : List LatestRow) : List String :=
  (dedupList (lf.filterMap (·.checksum))).filter
    (fun c => decide (2 ≤ (lf.filter (fun a => a.checksum == some c)).length))

/-- The result rows of the `finddupefiles` query before `ORDER BY`, each
paired with its `b.path` sort key (the parent directory's path). -/
def dupeRowsUnsorted (s : Store) (pfilter : Option String) :
    List (DupeFileRow × Option String) :=
  let lf := latest_files s
  let rows := (dupeChecksumsQ lf).flatMap (fun c =>
    (lf.filter (fun a => a.checksum == some c)).map (fun a =>
      (⟨a.id, a.path.map (fun p => p ++ "/" ++ a.name), a.ts, c⟩, a.path)))
  match pfilter with
  | none => rows
  | some pfx => rows.filter (fun r =>
      match r.2 with
      | some ap => likeMatch pfx ap
      | none => false)

/-- `ORDER BY a.checksum, b.path` (`NULL` paths first). -/
def dupeKeyLe (a b : DupeFileRow × Option String) : Bool :=
  if a.1.checksum = b.1.checksum then optLeB strLeB a.2 b.2
  else strLeB a.1.checksum b.1.checksum

/-- The sorted keyed result stream of `finddupefiles`. -/
def dupeRowsSorted (s : Store) (pfilter : Option String) :
    List (DupeFileRow × Option String) :=
  insSort dupeKeyLe (dupeRowsUnsorted s pfilter)

/-- `finddupefiles(parentpath)`.  A given `parentpath` is passed through
`os.path.abspath` (the identity on the normalized absolute paths modelled
here) and suffixed with `os.sep` before becoming the `LIKE` prefix. -/
def finddupefiles (s : Store) (parentpath : Option String) : List DupeFileRow :=
  (dupeRowsSorted s (parentpath.map (fun p => p ++ "/"))).map (·.1)

/-! ### The `dupe_files` view and the directory scorer

`dupe_files` (used by `parent_dir_match_score`) differs from the inline CTE
of `finddupefiles`: its `dupe_csum` counts `COUNT(name)` (names are never
`NULL`), and it orders by checksum.  A `NULL`-checksum group can therefore
pass `c > 1`, but the join `d.checksum = a.checksum` matches no row for it,
contributing a single all-`NULL` row that no downstream equality can match;
it is dropped here. -/

def dupe_files_view (s : Store) : List LatestRow :=
  let lf := latest_files s
  let cs := insSort strLeB (dedupList (lf.filterMap (·.checksum)))
  (cs.filter (fun c => decide (2 ≤ (lf.filter (fun a => a.checksum == some c)).length))).flatMap
    (fun c => lf.filter (fun a => a.checksum == some c))

/-- A row of the `matches` CTE: two latest duplicate files with the same name
and checksum in two different directories, canonicalized by
`p1.parent < p2.parent`.  The `NULL`-padded columns of `dupe_files` never
satisfy the join conditions (`NULL` equality and `NULL <` are not true). -/
structure MatchRow where
  id1 : Nat
  id2 : Nat
  p1 : Nat
  p2 : Nat
deriving Repr, DecidableEq

/-- The `ON` condition of the `matches` self-join, evaluated for one ordered
row pair of `dupe_files`. -/
def matchCond (r1 r2 : LatestRow) : Option MatchRow :=
  match r1.id, r2.id, r1.checksum, r2.checksum, r1.parent, r2.parent with
  | some i1, some i2, some c1, some c2, some a, some b =>
    if c1 = c2 ∧ r1.name = r2.name ∧ ¬ a = b ∧ a < b
    then some ⟨i1, i2, a, b⟩ else none
  | _, _, _, _, _, _ => none

def matchesOf (s : Store) : List MatchRow :=
  let df := dupe_files_view s
  df.flatMap (fun r1 => df.filterMap (matchCond r1))

/-- A row of the `matching_dirs` CTE (`GROUP BY m.p1, m.p2` plus the two
`INNER JOIN fulltree` lookups and the two correlated totals). -/
structure MatchingDirRow where
  path1 : String
  path2 : String
  matchount : Nat
  p1total : Nat
  p2total : Nat
deriving Repr, DecidableEq

def mkMatchingDir (dirs : List DirRow) (lf : List LatestRow) (ms : List MatchRow)
    (pr : Nat × Nat) : Option MatchingDirRow :=
  match (fulltree dirs).find? (fun r => r.1 == pr.1),
        (fulltree dirs).find? (fun r => r.1 == pr.2) with
  | some f1, some f2 =>
    some { path1 := f1.2, path2 := f2.2,
           matchount := (ms.filter (fun m => m.p1 == pr.1 && m.p2 == pr.2)).length,
           p1total := (lf.filter (fun a => a.parent == some pr.1)).length,
           p2total := (lf.filter (fun a => a.parent == some pr.2)).length }
  | _, _ => none

def matching_dirs (s : Store) : List MatchingDirRow :=
  let lf := latest_files s
  let ms := matchesOf s
  (dedupList (ms.map (fun m => (m.p1, m.p2)))).filterMap (mkMatchingDir s.dirs lf ms)

/-- A result row of `parent_dir_match_score`:
`SELECT *, MAX(CAST(matchount AS REAL)/p1total, CAST(matchount AS REAL)/p2total) as mscore
 FROM matching_dirs` (`REAL` arithmetic modelled exactly in `ℚ`). -/
structure DirMatchRow where
  path1 : String
  path2 : String
  matchount : Nat
  p1total : Nat
  p2total : Nat
  mscore : ℚ
deriving Repr, DecidableEq

def parent_dir_match_score (s : Store) : List DirMatchRow :=
  (matching_dirs s).map (fun r =>
    { path1 := r.path1, path2 := r.path2, matchount := r.matchount,
      p1total := r.p1total, p2total := r.p2total,
      mscore := max ((r.matchount : ℚ) / r.p1total) ((r.matchount : ℚ) / r.p2total) })

/-- `finddupedirs(parentpath, similarity)`:
`SELECT * FROM parent_dir_match_score WHERE mscore > ?` with the caller's
threshold (Python default `0.5`; the `parentpath` argument is computed but
never used by the query). -/
def finddupedirs (s : Store) (threshold : ℚ) : List DirMatchRow :=
  (parent_dir_match_score s).filter (fun r => decide (threshold < r.mscore))

/-! ### The dead `contents_of_matches` aggregate

The view text also declares a CTE `contents_of_matches` that no later part of
the view references, so SQLite never instantiates it.  Read literally it
selects the latest rows whose id equals `m.id2` — the condition
`files.id = m.id2 OR files.id = m.id2` repeats the same comparand twice —
unioned with every latest row whenever `matching_dirs` is nonempty (the
subquery `SELECT id FROM matching_dirs` has no `id` column, so SQLite
resolves `id` to the outer `files.id`, making the `IN` a nonemptiness test),
ordered by checksum. -/

def contents_of_matches (s : Store) : List LatestRow :=
  let lf := latest_files s
  let ms := matchesOf s
  let branch1 := lf.filter (fun f => ms.any (fun m => f.id == some m.id2 || f.id == some m.id2))
  let branch2 := if (matching_dirs s).isEmpty then [] else lf
  insSort (fun a b => optLeB strLeB a.checksum b.checksum)
    (dedupList (branch1 ++ branch2))

set_option linter.unusedVariables false in
/-- `finddupedirs` with the dead `contents_of_matches` aggregate kept: the
aggregate is computed and, as in the view, consumed by nothing. -/
def finddupedirsKeepingDeadAggregate (s : Store) (threshold : ℚ) : List DirMatchRow :=
  let deadAggregate := contents_of_matches s
  (parent_dir_match_score s).filter (fun r => decide (threshold < r.mscore))

/-- The unused `escape` helper of `run.py`:
`pathpart.replace('/', '\\/')` — a backslash escape, and it is never called
by any code path. -/
def escape (pathpart : String) : String :=
  ⟨pathpart.data.flatMap (fun c => if c = '/' then ['\\', '/'] else [c])⟩

/-! ### Derived predicates used by the idempotence statements -/

/-- `tupleRecordedB s t`: tuple `t`'s parent path resolves in `s` and the row
that ingesting `t` would produce is already recorded at the resolved parent —
the state of affairs after a scan of an unchanged tree. -/
def tupleRecordedB (s : Store) (t : ScanTuple) : Bool :=
  match t.parent with
  | none => false
  | some pp =>
    match resolvePath s.dirs pp with
    | none => false
    | some i =>
      if t.isDir then
        s.dirs.any (fun d => d.name == t.name && d.parent == some i)
      else
        match t.csum with
        | none => false
        | some c =>
          s.files.any (fun f => f.name == t.name && f.parent == some i && f.checksum == c)

/-- Structural invariant of every store reachable by ingest from the empty
store: ids are dense (`nextDirId = length + 1`), positive, below the next id,
and each row's parent id is strictly below the row's own id (a directory is
created only after its parent). -/
def storeWFb (s : Store) : Bool :=
  (s.nextDirId == s.dirs.length + 1) &&
  s.dirs.all (fun d =>
    decide (0 < d.id) && decide (d.id < s.nextDirId) &&
    (match d.parent with
     | none => true
     | some j => decide (j < d.id)))

/-- The version rows of one `(name, parent)` pair under a non-`NULL` parent. -/
def versionGroup (files : List FileRow) (n : String) (q : Nat) : List FileRow :=
  files.filter (fun f => f.name == n && f.parent == some q)

/-- The maximal timestamp of a version group (`MAX(f.ts)`). -/
def maxTsOf (g : List FileRow) : Nat := (g.map (·.ts)).foldl Nat.max 0

/-! ### Concrete stores and scan sequences used as test inputs -/

/-- A small scan run: one top-level directory `/a` holding one file. -/
def restEx : List ScanTuple :=
  [⟨true, "/a", some "", none⟩, ⟨false, "f.txt", some "/a", some "h1"⟩]

def scanSeqEx : List ScanTuple := seedTuple :: restEx

/-- Store with directories `/x` and `/y`, each holding a latest file
`a.txt` with the same checksum `h`: one global duplicate group spanning the
two directories. -/
def exC1 : Store :=
  ⟨[⟨1, "", none⟩, ⟨2, "/x", some 1⟩, ⟨3, "/y", some 1⟩],
   [⟨1, "a.txt", some 2, "h", 10⟩, ⟨2, "a.txt", some 3, "h", 10⟩], 4, 3⟩

/-- Store with duplicate-checksum files `/x/z` and `/x/a/b`: the parent
paths order as `"/x" < "/x/a"` while the full paths order the other way
around (`"/x/a/b" < "/x/z"`). -/
def exC9 : Store :=
  ⟨[⟨1, "", none⟩, ⟨2, "x", some 1⟩, ⟨3, "a", some 2⟩],
   [⟨1, "z", some 2, "h", 1⟩, ⟨2, "b", some 3, "h", 1⟩], 4, 3⟩

/-- The spec's worked scorer example: `/x` holds `{a, b}`, `/y` holds
`{a, c}`, and `a` coincides by name and checksum. -/
def exC2 : Store :=
  ⟨[⟨1, "", none⟩, ⟨2, "x", some 1⟩, ⟨3, "y", some 1⟩],
   [⟨1, "a", some 2, "hA", 1⟩, ⟨2, "b", some 2, "hB", 1⟩,
    ⟨3, "a", some 3, "hA", 1⟩, ⟨4, "c", some 3, "hC", 1⟩], 4, 5⟩

/-- Directory rows containing both a nested chain `a` / `b` and a single
directory literally named `a/b`. -/
def exC8dirs : List DirRow :=
  [⟨1, "", none⟩, ⟨2, "a", some 1⟩, ⟨3, "b", some 2⟩, ⟨4, "a/b", some 1⟩]

/-- The store after ingesting just the root seed. -/
def sRootEx : Store := ingestAll emptyStore [seedTuple] 1

/-- Two versions of the same `(name, parent)` pair sharing one maximal
timestamp. -/
def exC6 : Store :=
  ⟨[⟨1, "", none⟩], [⟨1, "f", some 1, "hA", 5⟩, ⟨2, "f", some 1, "hB", 5⟩], 2, 3⟩

/-- First scan of the tree used by the changed-file witness: `/a/f.txt` with
checksum `h1`. -/
def s1exC5 : Store := ingestAll emptyStore scanSeqEx 1

/-! ## General lemmas about the list combinators -/

theorem mem_dedupList {α : Type} [DecidableEq α] {a : α} {l : List α} :
    a ∈ dedupList l ↔ a ∈ l := by
  induction l with
  | nil => simp [dedupList]
  | cons x xs ih =>
    by_cases h : a = x
    · simp [dedupList, h]
    · simp [dedupList, List.mem_filter, ih, h]

theorem mem_insertLe {α : Type} {le : α → α → Bool} {x a : α} {l : List α} :
    a ∈ insertLe le x l ↔ a = x ∨ a ∈ l := by
  induction l with
  | nil => simp [insertLe]
  | cons y ys ih =>
    simp only [insertLe]
    split
    · simp
    · simp [ih]
      tauto

theorem mem_insSort {α : Type} {le : α → α → Bool} {a : α} {l : List α} :
    a ∈ insSort le l ↔ a ∈ l := by
  induction l with
  | nil => simp [insSort]
  | cons x xs ih => simp [insSort, mem_insertLe, ih]

theorem chain'_insertLe {α : Type} {le : α → α → Bool}
    (hto : ∀ a b, (le a b || le b a) = true) (x : α) :
    ∀ {l : List α}, List.Chain' (fun a b => le a b = true) l →
      List.Chain' (fun a b => le a b = true) (insertLe le x l) := by
  intro l
  induction l with
  | nil => intro _; simp [insertLe]
  | cons y ys ih =>
    intro hl
    simp only [insertLe]
    split
    case isTrue h => exact List.chain'_cons.mpr ⟨h, hl⟩
    case isFalse h =>
      have hyx : le y x = true := by
        have htot := hto x y
        rw [Bool.or_eq_true] at htot
        rcases htot with h1 | h1
        · exact absurd h1 h
        · exact h1
      cases ys with
      | nil =>
        simp only [insertLe]
        exact List.chain'_cons.mpr ⟨hyx, List.chain'_singleton x⟩
      | cons z zs =>
        have hltail := List.chain'_cons.mp hl
        have hins := ih hltail.2
        simp only [insertLe] at hins ⊢
        split
        case isTrue hxz =>
          exact List.chain'_cons.mpr ⟨hyx,
            List.chain'_cons.mpr ⟨hxz, hltail.2⟩⟩
        case isFalse hxz =>
          rw [if_neg hxz] at hins
          exact List.chain'_cons.mpr ⟨hltail.1, hins⟩

theorem chain'_insSort {α : Type} {le : α → α → Bool}
    (hto : ∀ a b, (le a b || le b a) = true) (l : List α) :
    List.Chain' (fun a b => le a b = true) (insSort le l) := by
  induction l with
  | nil => simp [insSort]
  | cons x xs ih => exact chain'_insertLe hto x ih

/-! ## Totality of the `ORDER BY` comparators -/

theorem clLe_total (a b : List Char) : (clLe a b || clLe b a) = true := by
  induction a generalizing b with
  | nil => simp [clLe]
  | cons x xs ih =>
    cases b with
    | nil => simp [clLe]
    | cons y ys =>
      by_cases h1 : x.toNat < y.toNat
      · simp [clLe, h1]
      · by_cases h2 : y.toNat < x.toNat
        · simp [clLe, h1, h2]
        · simp [clLe, h1, h2, ih ys]

theorem strLeB_total (a b : String) : (strLeB a b || strLeB b a) = true :=
  clLe_total a.data b.data

theorem optLeB_total {α : Type} {le : α → α → Bool}
    (hle : ∀ a b, (le a b || le b a) = true) :
    ∀ x y : Option α, (optLeB le x y || optLeB le y x) = true
  | none, _ => by simp [optLeB]
  | some _, none => by simp [optLeB]
  | some a, some b => by simpa [optLeB] using hle a b

theorem dupeKeyLe_total (a b : DupeFileRow × Option String) :
    (dupeKeyLe a b || dupeKeyLe b a) = true := by
  unfold dupeKeyLe
  by_cases h : a.1.checksum = b.1.checksum
  · simp [h, optLeB_total strLeB_total a.2 b.2]
  · simp [h, Ne.symm h, strLeB_total]

/-! ## Claim theorems -/

/-- Claim C1: the claim says `duplicateFiles(prefix)` computes duplicate
status globally (true: the prefix appears only in the final `WHERE`) and
"never omits a member located under the prefix".  The latter is false: the
filter tests the parent-directory path `a.path` against `abspath(prefix) + '/'`,
so a duplicate lying directly inside the prefix directory never matches.
In `exC1`, `/x/a.txt` and `/y/a.txt` form one global duplicate group and the
unfiltered query returns both, yet with prefix `/x` the query returns
nothing at all — omitting the member under `/x`. -/
theorem c1_prefix_filter_omits_direct_children :
    finddupefiles exC1 none =
      [⟨some 1, some "/x/a.txt", 10, "h"⟩, ⟨some 2, some "/y/a.txt", 10, "h"⟩] ∧
    finddupefiles exC1 (some "/x") = [] := by decide

/-- Claim C3: the claimed invariant "(name, parent) unique, single-rooted,
exactly one sentinel root" is broken by any second scan ingest: every run
re-inserts the seed `("", NULL)`, and SQLite's `UNIQUE (name, parent)`
never fires on a `NULL` parent, so the store accumulates one sentinel root
row per run.  After ingesting the same scan sequence twice the dirs table
holds two rows with the empty name and a null parent. -/
theorem c3_duplicate_sentinel_roots :
    ((ingestAll (ingestAll emptyStore scanSeqEx 1) scanSeqEx 2).dirs.filter
        (fun d => d.name == "" && d.parent == none)).length = 2 := by decide

/-- Claim C7 counterexample: the claim says that when a tuple's parent path
does not resolve "the affected insertion inserts nothing into the store".
In fact the `SELECT id FROM fulltree WHERE path=?` scalar subquery yields
`NULL` and the `INSERT OR IGNORE` proceeds, adding a row with a `NULL`
parent: ingesting a file tuple whose parent is the nonexistent `/nope` into
the root-only store appends a parentless file row. -/
theorem c7_counterexample_null_parent_row :
    (ingestStep 5 sRootEx ⟨false, "f.txt", some "/nope", some "h"⟩).files =
      [⟨1, "f.txt", none, "h", 5⟩] ∧
    sRootEx.files = [] := by decide

/-- Claim C7 as amended: when a tuple's parent path does not resolve, the
insertion still happens but with a `NULL` parent reference (a directory
tuple appends a parentless directory row, a file tuple a parentless file
row); the failure is not fatal and ingest continues with the remaining
tuples of the batch. -/
theorem c7_amended_unresolvable_parent (s : Store) (ts : Nat) (t : ScanTuple)
    (rest : List ScanTuple) (pp : String)
    (hp : t.parent = some pp) (hres : resolvePath s.dirs pp = none) :
    (t.isDir = true →
      ingestAll s (t :: rest) ts =
        ingestAll { s with dirs := s.dirs ++ [⟨s.nextDirId, t.name, none⟩],
                           nextDirId := s.nextDirId + 1 } rest ts) ∧
    (∀ c, t.isDir = false → t.csum = some c →
      ingestAll s (t :: rest) ts =
        ingestAll { s with files := s.files ++ [⟨s.nextFileId, t.name, none, c, ts⟩],
                           nextFileId := s.nextFileId + 1 } rest ts) := by
  have h1 : ingestAll s (t :: rest) ts = ingestAll (ingestStep ts s t) rest ts := rfl
  constructor
  · intro hd
    rw [h1]
    congr 1
    simp [ingestStep, hd, insertDir, hp, hres]
  · intro c hd hc
    rw [h1]
    congr 1
    simp [ingestStep, hd, hc, insertFile, hp, hres]

/-- Witness for the amended C7 at a concrete input: a file tuple under the
nonexistent parent `/nope` appends a parentless row to the root-only store
and the batch goes on. -/
theorem c7_amended_witness :
    ingestAll sRootEx [⟨false, "doc.txt", some "/nope", some "h9"⟩] 7 =
      ingestAll { sRootEx with
          files := sRootEx.files ++ [⟨sRootEx.nextFileId, "doc.txt", none, "h9", 7⟩],
          nextFileId := sRootEx.nextFileId + 1 } [] 7 :=
  (c7_amended_unresolvable_parent sRootEx 7 ⟨false, "doc.txt", some "/nope", some "h9"⟩
    [] "/nope" rfl (by decide)).2 "h9" rfl rfl

/-- Claim C8: the claim says slashes inside a directory name are escaped by
doubling so that materialized paths round-trip.  The code does the opposite:
`fulltree` computes `REPLACE(parent || '/' || name, '//', '/')` (its own
`TODO escape slashes in name` admits the omission), which collapses doubled
slashes, and the `escape` helper — which uses a backslash, not doubling —
is never called.  In `exC8dirs`, the nested directory `b` (id 3, under `a`)
and the directory literally named `a/b` (id 4, under the root) both
materialize to `/a/b`, so the path does not round-trip; a name containing
`//` is silently rewritten; and `escape` does not double slashes. -/
theorem c8_no_escaping_paths_ambiguous :
    ((fulltree exC8dirs).find? (fun r => r.1 == 3)).map (·.2) = some "/a/b" ∧
    ((fulltree exC8dirs).find? (fun r => r.1 == 4)).map (·.2) = some "/a/b" ∧
    pathJoin "" "a//b" = "/a/b" ∧
    escape "a/b" = "a\\/b" := by decide

/-- Claim C9 counterexample: the claim says rows come out ordered by hash
then materialized *full* path.  The query's `ORDER BY a.checksum, b.path`
sorts by the parent directory's path instead: in `exC9` both result rows
carry checksum `h`, and the row with full path `/x/z` precedes the row with
full path `/x/a/b` even though `/x/a/b` sorts strictly before `/x/z`. -/
theorem c9_counterexample_not_fullpath_ordered :
    (finddupefiles exC9 none).map (·.path) = [some "/x/z", some "/x/a/b"] ∧
    (finddupefiles exC9 none).map (·.checksum) = ["h", "h"] ∧
    strLeB "/x/z" "/x/a/b" = false := by decide

/-- Claim C9 as amended: for every store and prefix argument,
`finddupefiles` returns its rows ordered by content hash first and then by
the *parent directory's* materialized path (the `b.path` join column), the
file name taking no part in the order; `finddupefiles` is exactly the
projection of that sorted keyed stream. -/
theorem c9_amended_ordered_by_hash_then_dirpath (s : Store) (parentpath : Option String) :
    List.Chain' (fun a b => dupeKeyLe a b = true)
      (dupeRowsSorted s (parentpath.map (fun p => p ++ "/"))) ∧
    finddupefiles s parentpath =
      (dupeRowsSorted s (parentpath.map (fun p => p ++ "/"))).map (·.1) :=
  ⟨chain'_insSort dupeKeyLe_total _, rfl⟩

/-- Claim C10: the result rows of the directory scorer are identical with
and without the dead `contents_of_matches` aggregate: the final
`SELECT ... FROM matching_dirs` never consumes it, so computing it (buggy
duplicated condition and all) and discarding it emits the same stream. -/
theorem c10_dead_aggregate_unobservable (s : Store) (threshold : ℚ) :
    finddupedirsKeepingDeadAggregate s threshold = finddupedirs s threshold := rfl

/-! ## Lemmas about the directory scorer -/

theorem matchCond_p_lt {r1 r2 : LatestRow} {m : MatchRow}
    (h : matchCond r1 r2 = some m) : m.p1 < m.p2 := by
  unfold matchCond at h
  cases h1 : r1.id <;> rw [h1] at h <;>
    cases h2 : r2.id <;> rw [h2] at h <;>
    cases h3 : r1.checksum <;> rw [h3] at h <;>
    cases h4 : r2.checksum <;> rw [h4] at h <;>
    cases h5 : r1.parent <;> rw [h5] at h <;>
    cases h6 : r2.parent <;> rw [h6] at h <;>
    try exact Option.noConfusion h
  rw [ite_eq_iff] at h
  rcases h with ⟨hc, heq⟩ | ⟨-, heq⟩
  · cases heq
    exact hc.2.2.2
  · exact Option.noConfusion heq

theorem mem_matchesOf {s : Store} {m : MatchRow} :
    m ∈ matchesOf s ↔
      ∃ r1 ∈ dupe_files_view s, ∃ r2 ∈ dupe_files_view s, matchCond r1 r2 = some m := by
  simp [matchesOf, List.mem_flatMap, List.mem_filterMap]

theorem matchesOf_p1_lt_p2 {s : Store} {m : MatchRow} (hm : m ∈ matchesOf s) :
    m.p1 < m.p2 := by
  obtain ⟨r1, -, r2, -, hc⟩ := mem_matchesOf.mp hm
  exact matchCond_p_lt hc

theorem mkMatchingDir_some {dirs : List DirRow} {lf : List LatestRow}
    {ms : List MatchRow} {pr : Nat × Nat} {md : MatchingDirRow}
    (h : mkMatchingDir dirs lf ms pr = some md) :
    md.matchount = (ms.filter (fun m => m.p1 == pr.1 && m.p2 == pr.2)).length ∧
    md.p1total = (lf.filter (fun a => a.parent == some pr.1)).length ∧
    md.p2total = (lf.filter (fun a => a.parent == some pr.2)).length := by
  unfold mkMatchingDir at h
  cases h1 : (fulltree dirs).find? (fun r => r.1 == pr.1) <;> rw [h1] at h <;>
    cases h2 : (fulltree dirs).find? (fun r => r.1 == pr.2) <;> rw [h2] at h <;>
    try exact Option.noConfusion h
  cases h
  exact ⟨rfl, rfl, rfl⟩

/-- Claim C2: `similarDirectories` returns exactly the canonicalized
directory pairs with at least one shared `(name, hash)` duplicate
coincidence, carrying `matchcount`, both totals and
`mscore = max(matchcount/p1total, matchcount/p2total)`, and a pair is
emitted iff `mscore` is strictly greater than the caller's threshold
(Python default `0.5`): membership in the result of `finddupedirs` is
characterized by a strict threshold test together with the
`matching_dirs`-row equation for some canonical pair `i < j` whose match
count is at least one. -/
theorem c2_similar_directories (s : Store) (threshold : ℚ) (r : DirMatchRow) :
    r ∈ finddupedirs s threshold ↔
      (threshold < r.mscore ∧
       r.mscore = max ((r.matchount : ℚ) / r.p1total) ((r.matchount : ℚ) / r.p2total) ∧
       1 ≤ r.matchount ∧
       ∃ i j, i < j ∧
         mkMatchingDir s.dirs (latest_files s) (matchesOf s) (i, j) =
           some ⟨r.path1, r.path2, r.matchount, r.p1total, r.p2total⟩) := by
  constructor
  · intro hr
    have hr' := List.mem_filter.mp hr
    have hθ : threshold < r.mscore := of_decide_eq_true hr'.2
    obtain ⟨md, hmd, hmap⟩ := List.mem_map.mp hr'.1
    have hmd' : md ∈ (dedupList ((matchesOf s).map (fun m => (m.p1, m.p2)))).filterMap
        (mkMatchingDir s.dirs (latest_files s) (matchesOf s)) := hmd
    obtain ⟨pr, hpr, hmk⟩ := List.mem_filterMap.mp hmd'
    obtain ⟨m, hm, hkey⟩ := List.mem_map.mp (mem_dedupList.mp hpr)
    subst hmap
    refine ⟨hθ, rfl, ?_, m.p1, m.p2, matchesOf_p1_lt_p2 hm, ?_⟩
    · have h1 := (mkMatchingDir_some hmk).1
      have hmem : m ∈ (matchesOf s).filter (fun m' => m'.p1 == pr.1 && m'.p2 == pr.2) := by
        rw [List.mem_filter]
        refine ⟨hm, ?_⟩
        rw [← hkey]
        simp
      calc 1 ≤ ((matchesOf s).filter (fun m' => m'.p1 == pr.1 && m'.p2 == pr.2)).length :=
              List.length_pos.mpr (List.ne_nil_of_mem hmem)
        _ = md.matchount := h1.symm
    · have hpr' : pr = (m.p1, m.p2) := hkey.symm
      rw [← hpr']
      convert hmk using 2
  · rintro ⟨hθ, hform, hmc, i, j, hij, hmk⟩
    have hfields := mkMatchingDir_some hmk
    have hmemm : ∃ m ∈ matchesOf s, (m.p1, m.p2) = (i, j) := by
      have hlen : 1 ≤ ((matchesOf s).filter (fun m => m.p1 == i && m.p2 == j)).length := by
        have := hfields.1
        simp only at this
        omega
      obtain ⟨m, hm⟩ := List.exists_mem_of_length_pos hlen
      have hm' := List.mem_filter.mp hm
      refine ⟨m, hm'.1, ?_⟩
      have := hm'.2
      simp at this
      simp [this.1, this.2]
    obtain ⟨m, hm, hkey⟩ := hmemm
    have hmd : (⟨r.path1, r.path2, r.matchount, r.p1total, r.p2total⟩ : MatchingDirRow) ∈
        matching_dirs s := by
      simp only [matching_dirs]
      refine List.mem_filterMap.mpr ⟨(i, j), ?_, hmk⟩
      exact mem_dedupList.mpr (List.mem_map.mpr ⟨m, hm, hkey⟩)
    have hrmem : r ∈ parent_dir_match_score s := by
      refine List.mem_map.mpr ⟨⟨r.path1, r.path2, r.matchount, r.p1total, r.p2total⟩, hmd, ?_⟩
      cases r
      simp only at hform ⊢
      rw [← hform]
    exact List.mem_filter.mpr ⟨hrmem, decide_eq_true hθ⟩

/-- Claim C2 spot checks against the spec's worked example: `/x = {a, b}`
and `/y = {a, c}` with `a` matching by name and hash give
`mscore = 1/2`, excluded at threshold `0.5`, included at `0.49`. -/
theorem c2_spec_example :
    finddupedirs exC2 ((1 : ℚ) / 2) = [] ∧
    finddupedirs exC2 ((49 : ℚ) / 100) =
      [⟨"/x", "/y", 1, 2, 2, (1 : ℚ) / 2⟩] := by
  constructor <;> with_unfolding_all decide

/-- Claim C6: the latest-version projection makes a deterministic choice
among versions sharing the maximal timestamp.  For any `(name, parent)`
group with at least two maximal-timestamp versions, the projection of the
unmodified store is a pure function — two evaluations agree — and every
returned row carries the id, checksum and timestamp of one fixed member of
the tie set (the first maximal row in table order, SQLite's bare-column
`MAX` pick for this query plan). -/
theorem c6_tiebreak_deterministic (s : Store) (n : String) (q : Nat)
    (htie : 2 ≤ ((versionGroup s.files n q).filter
        (fun f => f.ts == maxTsOf (versionGroup s.files n q))).length) :
    ∃ b, b ∈ s.files ∧ b.name = n ∧ b.parent = some q ∧
      b.ts = maxTsOf (versionGroup s.files n q) ∧
      latestFor s.files s.dirs (n, some q) = latestFor s.files s.dirs (n, some q) ∧
      ∀ r, latestFor s.files s.dirs (n, some q) = some r →
        r.id = some b.id ∧ r.checksum = some b.checksum ∧ r.ts = b.ts := by
  have hpos : 0 < ((versionGroup s.files n q).filter
      (fun f => f.ts == maxTsOf (versionGroup s.files n q))).length := by omega
  obtain ⟨f0, hf0⟩ := List.exists_mem_of_length_pos hpos
  have hf0' := List.mem_filter.mp hf0
  cases hfind : (versionGroup s.files n q).find?
      (fun f => f.ts == maxTsOf (versionGroup s.files n q)) with
  | none =>
    exact absurd hf0'.2 (List.find?_eq_none.mp hfind f0 hf0'.1)
  | some b =>
    have hbmem := List.mem_of_find?_eq_some hfind
    have hbg : b ∈ s.files ∧ b.name = n ∧ b.parent = some q := by
      simpa [versionGroup, List.mem_filter] using hbmem
    have hbts : b.ts = maxTsOf (versionGroup s.files n q) := by
      have := List.find?_some hfind
      simpa using this
    have hne : ((versionGroup s.files n q).isEmpty) = false := by
      cases hvg : versionGroup s.files n q with
      | nil => rw [hvg] at hf0'; cases hf0'.1
      | cons a l => rfl
    have heval : latestFor s.files s.dirs (n, some q) = some
        { name := n, parent := some q, ts := maxTsOf (versionGroup s.files n q),
          id := some b.id, checksum := some b.checksum,
          path := ((fulltree s.dirs).find? (fun x => x.1 == q)).map (·.2) } := by
      unfold latestFor
      simp only [versionGroup, maxTsOf] at hne hfind ⊢
      simp only [hne, Bool.false_eq_true, if_false, Option.isSome_some, if_true, hfind,
        Option.map_some', Option.some_bind]
    refine ⟨b, hbg.1, hbg.2.1, hbg.2.2, hbts, rfl, ?_⟩
    intro r hr
    rw [heval] at hr
    cases hr
    exact ⟨rfl, rfl, hbts.symm⟩

/-- Witness for C6 at the concrete tie `exC6` (two versions of `f` in
directory 1, both at timestamp 5). -/
theorem c6_witness :
    ∃ b, b ∈ exC6.files ∧ b.name = "f" ∧ b.parent = some 1 ∧
      b.ts = maxTsOf (versionGroup exC6.files "f" 1) ∧
      latestFor exC6.files exC6.dirs ("f", some 1) =
        latestFor exC6.files exC6.dirs ("f", some 1) ∧
      ∀ r, latestFor exC6.files exC6.dirs ("f", some 1) = some r →
        r.id = some b.id ∧ r.checksum = some b.checksum ∧ r.ts = b.ts :=
  c6_tiebreak_deterministic exC6 "f" 1 (by decide)

/-! ## Structural lemmas about `fulltree`

These support the re-scan idempotence results: appending a fresh, childless
root row (the re-inserted seed) to the dirs table leaves every existing
path resolution unchanged. -/

theorem ftLevel_nil (dirs : List DirRow) : ftLevel dirs [] = [] := rfl

theorem ftLevels_nil (dirs : List DirRow) : ∀ f, ftLevels dirs f [] = []
  | 0 => rfl
  | f + 1 => by simp [ftLevels, ftLevel_nil, ftLevels_nil dirs f]

theorem ftLevel_append (dirs : List DirRow) (A B : List (Nat × String)) :
    ftLevel dirs (A ++ B) = ftLevel dirs A ++ ftLevel dirs B :=
  List.flatMap_append ..

theorem childrenOf_append_none {r : DirRow} (dirs : List DirRow) (i : Nat)
    (hr : r.parent = none) : childrenOf (dirs ++ [r]) i = childrenOf dirs i := by
  simp [childrenOf, List.filter_append, hr]

theorem rootsOf_append_none {r : DirRow} (dirs : List DirRow)
    (hr : r.parent = none) : rootsOf (dirs ++ [r]) = rootsOf dirs ++ [r] := by
  simp [rootsOf, List.filter_append, hr]

theorem ftLevel_append_dirs_none {r : DirRow} (dirs : List DirRow)
    (lvl : List (Nat × String)) (hr : r.parent = none) :
    ftLevel (dirs ++ [r]) lvl = ftLevel dirs lvl := by
  unfold ftLevel
  apply List.flatMap_congr
  intro x _
  rw [childrenOf_append_none dirs x.1 hr]

theorem ftLevels_append_dirs_none {r : DirRow} (dirs : List DirRow)
    (hr : r.parent = none) :
    ∀ (f : Nat) (lvl : List (Nat × String)),
      ftLevels (dirs ++ [r]) f lvl = ftLevels dirs f lvl
  | 0, _ => rfl
  | f + 1, lvl => by
    simp only [ftLevels]
    rw [ftLevel_append_dirs_none dirs lvl hr,
      ftLevels_append_dirs_none dirs hr f (ftLevel dirs lvl)]

theorem mem_ftLevel {dirs : List DirRow} {lvl : List (Nat × String)}
    {x : Nat × String} (hx : x ∈ ftLevel dirs lvl) :
    ∃ d ∈ dirs, d.id = x.1 ∧
      ∃ y ∈ lvl, d.parent = some y.1 ∧ x.2 = pathJoin y.2 d.name := by
  obtain ⟨y, hy, hx'⟩ := List.mem_flatMap.mp hx
  obtain ⟨d, hd, hdx⟩ := List.mem_map.mp hx'
  have hd' := List.mem_filter.mp hd
  refine ⟨d, hd'.1, ?_, y, hy, ?_, ?_⟩
  · rw [← hdx]
  · have := hd'.2
    simpa using this
  · rw [← hdx]

theorem ftLevels_mem_or {dirs : List DirRow} {x : Nat × String} :
    ∀ {f : Nat} {lvl : List (Nat × String)}, x ∈ ftLevels dirs f lvl →
      x ∈ lvl ∨ ∃ lvl', x ∈ ftLevel dirs lvl' := by
  intro f
  induction f with
  | zero => intro lvl hx; cases hx
  | succ f ih =>
    intro lvl hx
    rcases List.mem_append.mp hx with h | h
    · exact Or.inl h
    · rcases ih h with h' | h'
      · exact Or.inr ⟨lvl, h'⟩
      · exact Or.inr h'

theorem fulltree_fst_mem {dirs : List DirRow} {x : Nat × String}
    (hx : x ∈ fulltree dirs) : ∃ d ∈ dirs, d.id = x.1 := by
  rcases ftLevels_mem_or hx with h | ⟨lvl', h⟩
  · obtain ⟨d, hd, hdx⟩ := List.mem_map.mp h
    exact ⟨d, (List.mem_filter.mp hd).1, by rw [← hdx]⟩
  · obtain ⟨d, hd, hdi, -⟩ := mem_ftLevel h
    exact ⟨d, hd, hdi⟩

theorem collapseSlashes_ne_nil : ∀ {l : List Char}, l ≠ [] → collapseSlashes l ≠ []
  | [], h => absurd rfl h
  | [c], _ => by simp [collapseSlashes]
  | c1 :: c2 :: rest, _ => by
    unfold collapseSlashes
    split <;> simp

theorem pathJoin_ne_empty (pp n : String) : pathJoin pp n ≠ "" := by
  unfold pathJoin
  intro h
  have hdata : collapseSlashes (pp.data ++ '/' :: n.data) = [] := by
    have := congrArg String.data h
    simpa using this
  refine collapseSlashes_ne_nil ?_ hdata
  cases pp.data <;> simp

theorem mem_ftLevel_snd_ne_empty {dirs : List DirRow} {lvl : List (Nat × String)}
    {x : Nat × String} (hx : x ∈ ftLevel dirs lvl) : x.2 ≠ "" := by
  obtain ⟨d, -, -, y, -, -, hpath⟩ := mem_ftLevel hx
  rw [hpath]
  exact pathJoin_ne_empty y.2 d.name

theorem ftLevels_fuel_stable {dirs : List DirRow} {N : Nat}
    (hpar : ∀ d ∈ dirs, ∀ j, d.parent = some j → j < d.id)
    (hbound : ∀ d ∈ dirs, d.id < N) :
    ∀ (fuel c : Nat) (lvl : List (Nat × String)),
      (∀ x ∈ lvl, c ≤ x.1 ∧ x.1 < N) → N ≤ fuel + c →
      ftLevels dirs (fuel + 1) lvl = ftLevels dirs fuel lvl := by
  intro fuel
  induction fuel with
  | zero =>
    intro c lvl hlvl hNc
    have hnil : lvl = [] := by
      apply List.eq_nil_iff_forall_not_mem.mpr
      intro x hx
      have := hlvl x hx
      omega
    rw [hnil, ftLevels_nil, ftLevels_nil]
  | succ f ih =>
    intro c lvl hlvl hNc
    show lvl ++ ftLevels dirs (f + 1) (ftLevel dirs lvl) =
      lvl ++ ftLevels dirs f (ftLevel dirs lvl)
    congr 1
    apply ih (c + 1)
    · intro x hx
      obtain ⟨d, hd, hdi, y, hy, hpar', -⟩ := mem_ftLevel hx
      have h1 := (hlvl y hy).1
      have h2 := hpar d hd y.1 hpar'
      have h3 := hbound d hd
      omega
    · omega

/-- Appending the re-inserted seed row — a fresh childless root with the
empty name — to a well-formed dirs table changes no successful path
resolution. -/
theorem resolvePath_append_root {dirs : List DirRow}
    (hpar : ∀ d ∈ dirs, ∀ j, d.parent = some j → j < d.id)
    (hpos : ∀ d ∈ dirs, 0 < d.id)
    (hbound : ∀ d ∈ dirs, d.id < dirs.length + 1)
    {p : String} {i : Nat} (hres : resolvePath dirs p = some i) :
    resolvePath (dirs ++ [⟨dirs.length + 1, "", none⟩]) p = some i := by
  have hchild : childrenOf dirs (dirs.length + 1) = [] := by
    rw [childrenOf, List.filter_eq_nil_iff]
    intro d hd hbeq
    have : d.parent = some (dirs.length + 1) := by simpa using hbeq
    have h1 := hpar d hd _ this
    have h2 := hbound d hd
    omega
  have hdne : dirs ≠ [] := by
    intro hnil
    rw [hnil] at hres
    simp [resolvePath, fulltree, rootsOf, ftLevels] at hres
  obtain ⟨len', hlen⟩ :=
    Nat.exists_eq_succ_of_ne_zero (fun h0 => hdne (List.length_eq_zero.mp h0))
  set L0 := (rootsOf dirs).map (fun d => (d.id, d.name)) with hL0
  set T := ftLevels dirs len' (ftLevel dirs L0) with hT
  have hold : fulltree dirs = L0 ++ T := by
    rw [fulltree, hlen]
    rfl
  have happlen : (dirs ++ [(⟨dirs.length + 1, "", none⟩ : DirRow)]).length =
      dirs.length + 1 := by simp
  have hnilft : ftLevel dirs [((dirs.length + 1 : Nat), ("" : String))] = [] := by
    simp [ftLevel, hchild]
  have hnewtree : fulltree (dirs ++ [⟨dirs.length + 1, "", none⟩]) =
      L0 ++ ([((dirs.length + 1 : Nat), ("" : String))] ++ T) := by
    rw [fulltree, ftLevels_append_dirs_none dirs rfl, happlen,
      rootsOf_append_none dirs rfl, List.map_append]
    simp only [List.map_cons, List.map_nil]
    have hstep : ftLevels dirs (dirs.length + 1)
        (L0 ++ [((dirs.length + 1 : Nat), ("" : String))]) =
        (L0 ++ [((dirs.length + 1 : Nat), ("" : String))]) ++
          ftLevels dirs dirs.length (ftLevel dirs L0) := by
      show (L0 ++ [((dirs.length + 1 : Nat), ("" : String))]) ++
          ftLevels dirs dirs.length
            (ftLevel dirs (L0 ++ [((dirs.length + 1 : Nat), ("" : String))])) = _
      rw [ftLevel_append, hnilft, List.append_nil]
    rw [hstep]
    have hstab : ftLevels dirs dirs.length (ftLevel dirs L0) = T := by
      rw [hT, hlen]
      apply ftLevels_fuel_stable (N := dirs.length + 1) hpar hbound len' 2
      · intro x hx
        obtain ⟨d, hd, hdi, y, hy, hpar', -⟩ := mem_ftLevel hx
        obtain ⟨dy, hdy, hdyx⟩ := List.mem_map.mp hy
        have hy1 : 0 < y.1 := by
          have := hpos dy (List.mem_filter.mp hdy).1
          rw [← hdyx]
          simpa using this
        have h2 := hpar d hd y.1 hpar'
        have h3 := hbound d hd
        omega
      · omega
    rw [hstab, List.append_assoc]
  rw [resolvePath] at hres ⊢
  rw [hnewtree]
  rw [hold] at hres
  rw [List.find?_append] at hres ⊢
  cases hfL0 : L0.find? (fun r => r.2 == p) with
  | some v =>
    rw [hfL0] at hres
    exact hres
  | none =>
    rw [hfL0] at hres
    simp only [Option.none_or] at hres ⊢
    cases hfT : T.find? (fun r => r.2 == p) with
    | none => rw [hfT] at hres; cases hres
    | some e =>
      rw [hfT] at hres
      have hep : e.2 = p := by
        have := List.find?_some hfT
        simpa using this
      have hpne : p ≠ "" := by
        rw [← hep]
        have hmem := List.mem_of_find?_eq_some hfT
        rcases ftLevels_mem_or hmem with h | ⟨lvl', h⟩
        · exact mem_ftLevel_snd_ne_empty h
        · exact mem_ftLevel_snd_ne_empty h
      rw [List.find?_append]
      have hbe : (("" : String) == p) = false := by
        rw [beq_eq_false_iff_ne]
        exact Ne.symm hpne
      have hone : ([((dirs.length + 1 : Nat), ("" : String))].find?
          (fun r => r.2 == p)) = none := by
        simp [List.find?, hbe]
      rw [hone]
      simp only [Option.none_or]
      rw [hfT]
      exact hres

/-! ## The store well-formedness invariant -/

theorem storeWF_spec {s : Store} (h : storeWFb s = true) :
    s.nextDirId = s.dirs.length + 1 ∧
    ∀ d ∈ s.dirs, 0 < d.id ∧ d.id < s.nextDirId ∧
      ∀ j, d.parent = some j → j < d.id := by
  rw [storeWFb, Bool.and_eq_true, List.all_eq_true] at h
  obtain ⟨h1, h2⟩ := h
  refine ⟨by simpa using h1, fun d hd => ?_⟩
  have hd' := h2 d hd
  rw [Bool.and_eq_true, Bool.and_eq_true] at hd'
  refine ⟨by simpa using hd'.1.1, by simpa using hd'.1.2, fun j hj => ?_⟩
  have h3 := hd'.2
  rw [hj] at h3
  simpa using h3

theorem storeWF_build {s : Store}
    (h1 : s.nextDirId = s.dirs.length + 1)
    (h2 : ∀ d ∈ s.dirs, 0 < d.id ∧ d.id < s.nextDirId ∧
      ∀ j, d.parent = some j → j < d.id) :
    storeWFb s = true := by
  rw [storeWFb, Bool.and_eq_true, List.all_eq_true]
  refine ⟨by simpa using h1, fun d hd => ?_⟩
  obtain ⟨ha, hb, hc⟩ := h2 d hd
  rw [Bool.and_eq_true, Bool.and_eq_true]
  refine ⟨⟨by simpa using ha, by simpa using hb⟩, ?_⟩
  cases hp : d.parent with
  | none => rfl
  | some j => simpa using hc j hp

theorem storeWFb_insertDir {s : Store} (name : String) (pp : Option String)
    (h : storeWFb s = true) : storeWFb (insertDir s name pp) = true := by
  obtain ⟨h1, h2⟩ := storeWF_spec h
  simp only [insertDir]
  split
  · exact h
  · apply storeWF_build
    · simp [h1]
    · intro d hd
      rcases List.mem_append.mp hd with hold | hnew
      · obtain ⟨ha, hb, hc⟩ := h2 d hold
        exact ⟨ha, by simp; omega, hc⟩
      · have hdval : d = ⟨s.nextDirId, name,
            pp.bind (fun p => resolvePath s.dirs p)⟩ := by simpa using hnew
        subst hdval
        refine ⟨by simp [h1], by simp, ?_⟩
        intro j hj
        simp only at hj ⊢
        cases hpp : pp with
        | none => rw [hpp] at hj; cases hj
        | some p =>
          rw [hpp] at hj
          simp only [Option.some_bind] at hj
          rw [resolvePath] at hj
          cases hf : (fulltree s.dirs).find? (fun r => r.2 == p) with
          | none => rw [hf] at hj; cases hj
          | some x =>
            rw [hf] at hj
            have hx : x.1 = j := by simpa using hj
            obtain ⟨d', hd', hd'i⟩ := fulltree_fst_mem (List.mem_of_find?_eq_some hf)
            have := (h2 d' hd').2.1
            omega

theorem storeWFb_insertFile {s : Store} (name : String) (pp : Option String)
    (c : String) (ts : Nat) (h : storeWFb s = true) :
    storeWFb (insertFile s name pp c ts) = true := by
  simp only [insertFile]
  split
  · exact h
  · obtain ⟨h1, h2⟩ := storeWF_spec h
    exact storeWF_build h1 h2

theorem storeWFb_ingestStep {s : Store} (ts : Nat) (t : ScanTuple)
    (h : storeWFb s = true) : storeWFb (ingestStep ts s t) = true := by
  unfold ingestStep
  split
  · exact storeWFb_insertDir t.name t.parent h
  · cases t.csum with
    | none => exact h
    | some c => exact storeWFb_insertFile t.name t.parent c ts h

theorem storeWFb_ingestAll {s : Store} (tuples : List ScanTuple) (ts : Nat)
    (h : storeWFb s = true) : storeWFb (ingestAll s tuples ts) = true := by
  induction tuples generalizing s with
  | nil => exact h
  | cons t rest ih => exact ih (storeWFb_ingestStep ts t h)

theorem storeWFb_empty : storeWFb emptyStore = true := rfl

/-- Re-resolving a path against the dirs table grown by the re-inserted seed
row gives the same id. -/
theorem resolve_after_seed {s1 : Store} (hwf : storeWFb s1 = true)
    {pp : String} {i : Nat} (h : resolvePath s1.dirs pp = some i) :
    resolvePath (s1.dirs ++ [⟨s1.nextDirId, "", none⟩]) pp = some i := by
  obtain ⟨hnext, hall⟩ := storeWF_spec hwf
  rw [hnext]
  exact resolvePath_append_root
    (fun d hd => (hall d hd).2.2)
    (fun d hd => (hall d hd).1)
    (fun d hd => hnext ▸ (hall d hd).2.1)
    h

/-- During a re-ingest of tuples that are all already recorded in `s1`, a
state whose dirs table is `s1`'s plus the re-inserted seed row and whose
files table contains `s1`'s rows absorbs every tuple as an
`INSERT OR IGNORE` no-op. -/
theorem run2_preserved (s1 : Store) (hwf : storeWFb s1 = true) (ts : Nat) :
    ∀ (rest : List ScanTuple) (S : Store),
      S.dirs = s1.dirs ++ [⟨s1.nextDirId, "", none⟩] →
      (∀ f ∈ s1.files, f ∈ S.files) →
      (∀ t ∈ rest, tupleRecordedB s1 t = true) →
      ingestAll S rest ts = S := by
  intro rest
  induction rest with
  | nil => intro S _ _ _; rfl
  | cons t rest ih =>
    intro S hdirs hfiles hrec
    have hr := hrec t (List.mem_cons_self t rest)
    rw [tupleRecordedB] at hr
    have hstep : ingestStep ts S t = S := by
      cases hp : t.parent with
      | none => simp only [hp] at hr; exact Bool.noConfusion hr
      | some pp =>
        simp only [hp] at hr
        cases hres : resolvePath s1.dirs pp with
        | none => simp only [hres] at hr; exact Bool.noConfusion hr
        | some i =>
          simp only [hres] at hr
          have hres2 : resolvePath S.dirs pp = some i := by
            rw [hdirs]
            exact resolve_after_seed hwf hres
          by_cases hd : t.isDir = true
          · rw [if_pos hd] at hr
            rw [ingestStep, if_pos hd]
            simp only [insertDir, hp, Option.some_bind, hres2]
            rw [if_pos]
            rw [Bool.and_eq_true]
            constructor
            · rfl
            · rw [List.any_eq_true] at hr ⊢
              obtain ⟨d, hdm, hdp⟩ := hr
              exact ⟨d, by rw [hdirs]; exact List.mem_append_left _ hdm, hdp⟩
          · rw [if_neg hd] at hr
            rw [ingestStep, if_neg hd]
            cases hc : t.csum with
            | none => simp only [hc] at hr; exact Bool.noConfusion hr
            | some c =>
              simp only [hc] at hr
              simp only [insertFile, hp, Option.some_bind, hres2]
              rw [if_pos]
              rw [Bool.and_eq_true]
              constructor
              · rfl
              · rw [List.any_eq_true] at hr ⊢
                obtain ⟨f, hfm, hfp⟩ := hr
                exact ⟨f, hfiles f hfm, hfp⟩
    have hfold : ingestAll S (t :: rest) ts = ingestAll (ingestStep ts S t) rest ts := rfl
    rw [hfold, hstep]
    exact ih S hdirs hfiles (fun t' ht' => hrec t' (List.mem_cons_of_mem _ ht'))

/-- Processing the seed tuple appends exactly one parentless root row. -/
theorem ingestStep_seed (s : Store) (ts : Nat) :
    ingestStep ts s seedTuple =
      { s with dirs := s.dirs ++ [⟨s.nextDirId, "", none⟩],
               nextDirId := s.nextDirId + 1 } := by
  simp [ingestStep, seedTuple, insertDir]

/-- Claim C4: re-ingesting the identical scan sequence of an unchanged tree
leaves the file-version log exactly equal to its state after the first
ingest — every already-known `(name, parent, hash)` triple is an
`INSERT OR IGNORE` no-op that adds no row and raises no error.  The
hypothesis says the first ingest recorded each tuple of the sequence at the
directory id its parent path resolves to, which is what a scan of an
unchanged tree produces.  (The dirs table is *not* preserved — the seed row
is re-inserted, see C3 — but the file log is untouched.) -/
theorem c4_rescan_preserves_file_log (rest : List ScanTuple) (ts1 ts2 : Nat)
    (hrec : ∀ t ∈ rest,
      tupleRecordedB (ingestAll emptyStore (seedTuple :: rest) ts1) t = true) :
    (ingestAll (ingestAll emptyStore (seedTuple :: rest) ts1)
        (seedTuple :: rest) ts2).files
      = (ingestAll emptyStore (seedTuple :: rest) ts1).files := by
  set s1 := ingestAll emptyStore (seedTuple :: rest) ts1 with hs1
  have hwf : storeWFb s1 = true :=
    storeWFb_ingestAll (seedTuple :: rest) ts1 storeWFb_empty
  have hfold : ingestAll s1 (seedTuple :: rest) ts2 =
      ingestAll (ingestStep ts2 s1 seedTuple) rest ts2 := rfl
  rw [hfold, ingestStep_seed]
  rw [run2_preserved s1 hwf ts2 rest
    { s1 with dirs := s1.dirs ++ [⟨s1.nextDirId, "", none⟩],
              nextDirId := s1.nextDirId + 1 }
    rfl (fun f hf => hf) hrec]

/-- Witness for C4: scanning `/a` with its file `f.txt` twice leaves the
file table of the store identical. -/
theorem c4_witness :
    (ingestAll (ingestAll emptyStore scanSeqEx 1) scanSeqEx 2).files
      = (ingestAll emptyStore scanSeqEx 1).files :=
  c4_rescan_preserves_file_log restEx 1 2 (by decide)

/-! ## Lemmas about the latest-version projection -/

theorem foldl_max_le (l : List Nat) (a m : Nat) (ha : a ≤ m)
    (hl : ∀ x ∈ l, x ≤ m) : l.foldl Nat.max a ≤ m := by
  induction l generalizing a with
  | nil => exact ha
  | cons x xs ih =>
    apply ih
    · exact Nat.max_le.mpr ⟨ha, hl x (List.mem_cons_self x xs)⟩
    · intro y hy
      exact hl y (List.mem_cons_of_mem _ hy)

theorem latestFor_key {files : List FileRow} {dirs : List DirRow}
    {k : String × Option Nat} {r : LatestRow}
    (h : latestFor files dirs k = some r) : r.name = k.1 ∧ r.parent = k.2 := by
  simp only [latestFor] at h
  split at h
  · exact Option.noConfusion h
  · cases h
    exact ⟨rfl, rfl⟩

theorem mem_latest_files {s : Store} {r : LatestRow} :
    r ∈ latest_files s ↔
      ∃ k ∈ latestKeys s.files, latestFor s.files s.dirs k = some r :=
  List.mem_filterMap

set_option linter.unusedVariables false in
/-- Claim C5: re-ingesting a scan in which exactly one file's content hash
has changed (to a hash not previously recorded for its `(name, parent)`
pair) adds exactly one new version row for that pair, leaves every prior
row present and unmodified, and afterwards the latest-version projection
reports the new hash — with the new timestamp — for that pair, not the old
one.  The `pre`/`post` hypotheses say the rest of the scan is unchanged
(already recorded); `hts` says the re-scan's timestamp is fresh for the
pair; `hprev` says the pair already had at least one version. -/
theorem c5_changed_hash_new_version (s1 : Store) (hwf : storeWFb s1 = true)
    (pre post : List ScanTuple) (t' : ScanTuple) (ts2 : Nat) (pp h2 : String) (i : Nat)
    (hpre : ∀ t ∈ pre, tupleRecordedB s1 t = true)
    (hpost : ∀ t ∈ post, tupleRecordedB s1 t = true)
    (hdir : t'.isDir = false)
    (hpar : t'.parent = some pp)
    (hres : resolvePath s1.dirs pp = some i)
    (hcs : t'.csum = some h2)
    (hfresh : ∀ f ∈ s1.files, ¬(f.name = t'.name ∧ f.parent = some i ∧ f.checksum = h2))
    (hts : ∀ f ∈ s1.files, f.name = t'.name → f.parent = some i → f.ts < ts2)
    (hprev : ∃ f ∈ s1.files, f.name = t'.name ∧ f.parent = some i) :
    (ingestAll s1 (seedTuple :: (pre ++ t' :: post)) ts2).files
        = s1.files ++ [⟨s1.nextFileId, t'.name, some i, h2, ts2⟩] ∧
    (∀ r ∈ latest_files (ingestAll s1 (seedTuple :: (pre ++ t' :: post)) ts2),
        r.name = t'.name → r.parent = some i → r.checksum = some h2 ∧ r.ts = ts2) ∧
    (∃ r ∈ latest_files (ingestAll s1 (seedTuple :: (pre ++ t' :: post)) ts2),
        r.name = t'.name ∧ r.parent = some i ∧ r.checksum = some h2) := by
  set newRow : FileRow := ⟨s1.nextFileId, t'.name, some i, h2, ts2⟩ with hnewRow
  set S : Store := { s1 with dirs := s1.dirs ++ [⟨s1.nextDirId, "", none⟩],
                             nextDirId := s1.nextDirId + 1 } with hSdef
  set S2 : Store := { S with files := s1.files ++ [newRow],
                             nextFileId := s1.nextFileId + 1 } with hS2def
  have hres2 : resolvePath S.dirs pp = some i := resolve_after_seed hwf hres
  have hnoc : (S.files.any
      (fun f => f.name == t'.name && f.parent == some i && f.checksum == h2)) = false := by
    rw [List.any_eq_false]
    intro f hf
    intro hcontra
    rw [Bool.and_eq_true, Bool.and_eq_true] at hcontra
    exact hfresh f hf ⟨by simpa using hcontra.1.1, by simpa using hcontra.1.2,
      by simpa using hcontra.2⟩
  have hstept : ingestStep ts2 S t' = S2 := by
    rw [ingestStep, if_neg (by rw [hdir]; exact Bool.false_ne_true)]
    rw [hcs]
    simp only [insertFile, hpar, Option.some_bind, hres2, Option.isSome_some,
      Bool.true_and, hnoc, Bool.false_eq_true, if_false]
  have hfinal : ingestAll s1 (seedTuple :: (pre ++ t' :: post)) ts2 = S2 := by
    have h0 : ingestAll s1 (seedTuple :: (pre ++ t' :: post)) ts2 =
        ingestAll (ingestStep ts2 s1 seedTuple) (pre ++ t' :: post) ts2 := rfl
    rw [h0, ingestStep_seed, ← hSdef]
    have h1 : ingestAll S (pre ++ t' :: post) ts2 =
        ingestAll (ingestAll S pre ts2) (t' :: post) ts2 := by
      simp only [ingestAll, List.foldl_append]
    rw [h1, run2_preserved s1 hwf ts2 pre S rfl (fun f hf => hf) hpre]
    have h2' : ingestAll S (t' :: post) ts2 =
        ingestAll (ingestStep ts2 S t') post ts2 := rfl
    rw [h2', hstept]
    exact run2_preserved s1 hwf ts2 post S2 rfl
      (fun f hf => List.mem_append_left _ hf) hpost
  have hfiles2 : (ingestAll s1 (seedTuple :: (pre ++ t' :: post)) ts2).files =
      s1.files ++ [newRow] := by rw [hfinal]
  -- the latest-version projection over the grown file table
  have hprednew : (newRow.name == t'.name && newRow.parent == some i) = true := by
    simp [hnewRow]
  have hgrpEq : (s1.files ++ [newRow]).filter
      (fun f => f.name == t'.name && f.parent == some i) =
      s1.files.filter (fun f => f.name == t'.name && f.parent == some i) ++ [newRow] := by
    rw [List.filter_append]
    congr 1
    simp [hnewRow]
  have hgrpmem : ∀ f ∈ s1.files.filter
      (fun f => f.name == t'.name && f.parent == some i), f.ts < ts2 := by
    intro f hf
    have hf' := List.mem_filter.mp hf
    have hp' := hf'.2
    rw [Bool.and_eq_true] at hp'
    exact hts f hf'.1 (by simpa using hp'.1) (by simpa using hp'.2)
  have hmax : (((s1.files.filter (fun f => f.name == t'.name && f.parent == some i)
      ++ [newRow]).map (·.ts)).foldl Nat.max 0) = ts2 := by
    rw [List.map_append, List.foldl_append]
    show Nat.max (List.foldl Nat.max 0 _) newRow.ts = ts2
    have : newRow.ts = ts2 := rfl
    rw [this]
    apply Nat.max_eq_right
    apply foldl_max_le
    · exact Nat.zero_le ts2
    · intro x hx
      obtain ⟨f, hf, hfx⟩ := List.mem_map.mp hx
      rw [← hfx]
      exact Nat.le_of_lt (hgrpmem f hf)
  have hfind : ((s1.files.filter (fun f => f.name == t'.name && f.parent == some i)
      ++ [newRow]).find? (fun f => f.ts == ts2)) = some newRow := by
    rw [List.find?_append]
    have hn : (s1.files.filter
        (fun f => f.name == t'.name && f.parent == some i)).find?
        (fun f => f.ts == ts2) = none := by
      rw [List.find?_eq_none]
      intro f hf
      have := hgrpmem f hf
      simp
      omega
    rw [hn]
    simp [List.find?]
  have hnonempty : ((s1.files.filter
      (fun f => f.name == t'.name && f.parent == some i)) ++ [newRow]).isEmpty = false := by
    cases s1.files.filter (fun f => f.name == t'.name && f.parent == some i) <;> rfl
  have heval : latestFor S2.files S2.dirs (t'.name, some i) = some
      { name := t'.name, parent := some i, ts := ts2,
        id := some newRow.id, checksum := some newRow.checksum,
        path := ((fulltree S2.dirs).find? (fun x => x.1 == i)).map (·.2) } := by
    simp only [latestFor]
    rw [hgrpEq]
    rw [if_neg (by rw [hnonempty]; exact Bool.false_ne_true)]
    rw [hmax, hfind]
    simp
  have hk0 : (t'.name, some i) ∈ latestKeys S2.files := by
    apply mem_dedupList.mpr
    apply List.mem_map.mpr
    refine ⟨newRow, ?_, rfl⟩
    exact List.mem_append_right _ (List.mem_cons_self _ _)
  refine ⟨hfiles2, ?_, ?_⟩
  · intro r hr hname hpar'
    rw [hfinal] at hr
    obtain ⟨k, hk, hlf⟩ := mem_latest_files.mp hr
    obtain ⟨hk1, hk2⟩ := latestFor_key hlf
    have hkval : k = (t'.name, some i) := by
      cases k
      simp only at hk1 hk2
      rw [← hk1, ← hk2, hname, hpar']
    rw [hkval, heval] at hlf
    cases hlf
    exact ⟨rfl, rfl⟩
  · rw [hfinal]
    refine ⟨_, mem_latest_files.mpr ⟨(t'.name, some i), hk0, heval⟩, rfl, rfl, rfl⟩

/-- Witness for C5: scanning `/a/f.txt` first with hash `h1`, then
re-scanning with the file changed to hash `h2`, adds exactly the one new
version row and the projection reports `h2`. -/
theorem c5_witness :
    (ingestAll s1exC5 (seedTuple :: ([⟨true, "/a", some "", none⟩] ++
        ⟨false, "f.txt", some "/a", some "h2"⟩ :: [])) 2).files
        = s1exC5.files ++ [⟨s1exC5.nextFileId, "f.txt", some 2, "h2", 2⟩] ∧
    (∀ r ∈ latest_files (ingestAll s1exC5 (seedTuple :: ([⟨true, "/a", some "", none⟩] ++
        ⟨false, "f.txt", some "/a", some "h2"⟩ :: [])) 2),
        r.name = "f.txt" → r.parent = some 2 → r.checksum = some "h2" ∧ r.ts = 2) ∧
    (∃ r ∈ latest_files (ingestAll s1exC5 (seedTuple :: ([⟨true, "/a", some "", none⟩] ++
        ⟨false, "f.txt", some "/a", some "h2"⟩ :: [])) 2),
        r.name = "f.txt" ∧ r.parent = some 2 ∧ r.checksum = some "h2") :=
  c5_changed_hash_new_version s1exC5 (by decide)
    [⟨true, "/a", some "", none⟩] [] ⟨false, "f.txt", some "/a", some "h2"⟩
    2 "/a" "h2" 2
    (by decide) (by decide) rfl rfl (by decide) rfl
    (by decide) (by decide) (by decide)

end Dupefinder
